import Mathlib

/-!
# Verification of the sales-data cleaning pipeline

Shallow embedding of `src/data_cleaning.py`: a tabular dataset is an ordered
list of column labels together with rows of cells; the four pure pipeline
stages (`clean_column_names`, `strip_product_and_category`,
`handle_missing_values`, `remove_invalid_rows`) are translated as pure
functions on that structure.  Python string operations are modelled on
`List Char` over the ASCII fragment; numeric cells are modelled as rationals.
The loader and writer perform file I/O only and are outside the model.
-/

namespace DataClean

/-- ASCII whitespace characters removed by Python `str.strip`. -/
def isSpaceChar (c : Char) : Bool :=
  c == ' ' || c == '\t' || c == '\n' || c == '\x0d' || c == '\x0b' || c == '\x0c'

/-- Python `str.strip`: drop leading and trailing whitespace characters
(character-list form). -/
def stripChars (cs : List Char) : List Char :=
  ((cs.dropWhile isSpaceChar).reverse.dropWhile isSpaceChar).reverse

/-- Python `str.strip` on strings. -/
def pyStrip (s : String) : String :=
  String.mk (stripChars s.toList)

/-- The ASCII uppercase/lowercase letter pairs. -/
def lowerPairs : List (Char × Char) :=
  [('A', 'a'), ('B', 'b'), ('C', 'c'), ('D', 'd'), ('E', 'e'), ('F', 'f'),
   ('G', 'g'), ('H', 'h'), ('I', 'i'), ('J', 'j'), ('K', 'k'), ('L', 'l'),
   ('M', 'm'), ('N', 'n'), ('O', 'o'), ('P', 'p'), ('Q', 'q'), ('R', 'r'),
   ('S', 's'), ('T', 't'), ('U', 'u'), ('V', 'v'), ('W', 'w'), ('X', 'x'),
   ('Y', 'y'), ('Z', 'z')]

/-- Python `str.lower`, character by character (ASCII model). -/
def pyLower (c : Char) : Char :=
  match lowerPairs.find? (fun p => p.1 == c) with
  | some p => p.2
  | none => c

/-- Python `str.replace(a, "_")` for a single-character pattern `a`,
character by character. -/
def replChar (a : Char) (c : Char) : Char :=
  if c = a then '_' else c

/-- Whether the character list contains two adjacent underscores
(Python `"__" in name`). -/
def hasDD : List Char → Bool
  | [] => false
  | [_] => false
  | c1 :: c2 :: rest => (c1 == '_' && c2 == '_') || hasDD (c2 :: rest)

/-- One pass of Python `name.replace("__", "_")`: left-to-right,
non-overlapping replacement of every adjacent underscore pair. -/
def replaceDD : List Char → List Char
  | [] => []
  | [c] => [c]
  | c1 :: c2 :: rest =>
    if c1 = '_' ∧ c2 = '_' then '_' :: replaceDD rest
    else c1 :: replaceDD (c2 :: rest)

/-- The `while "__" in name` loop of `clean_column_names`, run with explicit
fuel; each pass strictly shrinks the list, so `cs.length` passes suffice. -/
def collapseAux : Nat → List Char → List Char
  | 0, cs => cs
  | n + 1, cs => if hasDD cs then collapseAux n (replaceDD cs) else cs

/-- Collapse every run of two or more underscores into a single underscore
(the source's `while "__" in name: name = name.replace("__", "_")`). -/
def collapseDD (cs : List Char) : List Char :=
  collapseAux cs.length cs

/-- One column label rewritten by `clean_column_names`:
`str(c).strip().lower()` followed by the three single-character
replacements and the double-underscore collapse. -/
def normalizeName (s : String) : String :=
  let name := stripChars s.toList
  let name := name.map pyLower
  let name := name.map (replChar ' ')
  let name := name.map (replChar '/')
  let name := name.map (replChar '-')
  String.mk (collapseDD name)

/-- A cell of the tabular dataset: a text value, a numeric value (rationals
model the numeric cells produced by coercion), or the missing marker (NaN). -/
inductive Cell where
  | str : String → Cell
  | num : Rat → Cell
  | missing : Cell
  deriving DecidableEq

/-- The in-memory tabular dataset: an ordered list of column labels and a
list of rows, each row listing its cells in column order.  Duplicate labels
are representable, as they are in the source's tabular library. -/
@[ext]
structure DataFrame where
  cols : List String
  rows : List (List Cell)
  deriving DecidableEq

/-- Stage 2, `clean_column_names`: relabel every column with
`normalizeName`; cell values and rows are untouched. -/
def clean_column_names (df : DataFrame) : DataFrame :=
  { df with cols := df.cols.map (fun c => normalizeName c) }

/-- Test whether the first list is an initial segment of the second. -/
def leadsWith : List Char → List Char → Bool
  | [], _ => true
  | _ :: _, [] => false
  | p :: ps, c :: cs => p == c && leadsWith ps cs

/-- Python `pat in s` substring test on strings. -/
def containsSub (s pat : String) : Bool :=
  subAux pat.toList s.toList
where
  subAux (pat : List Char) : List Char → Bool
    | [] => pat.isEmpty
    | c :: rest => leadsWith pat (c :: rest) || subAux pat rest

/-- A designated text column of `strip_product_and_category`:
`("product" in c) or ("category" in c)`. -/
def isTextCol (c : String) : Bool :=
  containsSub c "product" || containsSub c "category"

/-- Rendering of a numeric cell by the external tabular library's
`astype(str)`; the exact shape is never relied on by the pipeline. -/
def ratRender (q : Rat) : String :=
  toString q.num ++ "/" ++ toString q.den

/-- Python `str()` form of a cell, as produced by `astype(str)`: text is kept
verbatim, numbers are rendered, and the missing marker renders as `"nan"`. -/
def pyStr (cell : Cell) : String :=
  match cell with
  | .str s => s
  | .num q => ratRender q
  | .missing => "nan"

/-- One cell of a designated text column after
`.astype(str).str.strip()`. -/
def stripCell (cell : Cell) : Cell :=
  Cell.str (pyStrip (pyStr cell))

/-- Apply `f` to each cell of a row together with the label of its column;
cells beyond the label list (or labels beyond the row) are left alone. -/
def mapByLabel (f : String → Cell → Cell) : List String → List Cell → List Cell
  | [], cs => cs
  | _ :: _, [] => []
  | l :: ls, c :: cs => f l c :: mapByLabel f ls cs

/-- Stage 3, `strip_product_and_category`: in every column whose label
contains `"product"` or `"category"`, replace each cell by its stripped
string form; all other columns pass through unchanged. -/
def strip_product_and_category (df : DataFrame) : DataFrame :=
  { df with
    rows := df.rows.map (fun row =>
      mapByLabel (fun l c => if isTextCol l then stripCell c else c) df.cols row) }

/-- Decimal-digit test (ASCII). -/
def isDigitChar (c : Char) : Bool :=
  '0' ≤ c && c ≤ '9'

/-- Value of a list of decimal digits. -/
def digitsToNat (cs : List Char) : Nat :=
  cs.foldl (fun acc c => 10 * acc + (c.toNat - 48)) 0

/-- Modelled from the spec: the unsigned part of the decimal grammar accepted
by the external library's `pandas.to_numeric` — "a standard decimal number
(optionally signed, optional fractional part)"; `to_numeric` itself is
third-party code, not part of this repository. -/
def decMain (cs : List Char) : Option Rat :=
  let intPart := cs.takeWhile isDigitChar
  match cs.dropWhile isDigitChar with
  | [] =>
    if intPart.isEmpty then none
    else some (mkRat (digitsToNat intPart) 1)
  | c :: frac =>
    if c = '.' then
      if frac.all isDigitChar && !(intPart.isEmpty && frac.isEmpty) then
        some (mkRat (digitsToNat intPart * 10 ^ frac.length + digitsToNat frac) (10 ^ frac.length))
      else none
    else none

/-- Modelled from the spec: string parsing performed by
`pandas.to_numeric(errors="coerce")` — an optional leading sign followed by
the unsigned decimal grammar; `none` when the string does not parse. -/
def parseDecimal (s : String) : Option Rat :=
  match s.toList with
  | [] => decMain []
  | c :: rest =>
    if c = '-' then (decMain rest).map (fun q => -q)
    else if c = '+' then decMain rest
    else decMain (c :: rest)

/-- One cell under `pd.to_numeric(-, errors="coerce")`: numbers survive,
missing stays missing, and a text cell parses or becomes missing. -/
def toNumericCell (cell : Cell) : Cell :=
  match cell with
  | .str s =>
    match parseDecimal s with
    | some q => Cell.num q
    | none => Cell.missing
  | .num q => Cell.num q
  | .missing => Cell.missing

/-- The designated numeric labels of stages 4 and 5. -/
def isNumLabel (l : String) : Bool :=
  l == "price" || l == "quantity"

/-- The coercion loop shared by stages 4 and 5:
`for col in ("price", "quantity"): if col in df.columns:
df[col] = pd.to_numeric(df[col], errors="coerce")`, expressed per row. -/
def coerceNumericRow (cols : List String) (row : List Cell) : List Cell :=
  mapByLabel (fun l c => if isNumLabel l then toNumericCell c else c) cols row

/-- Missing-marker test. -/
def isMissingCell (c : Cell) : Bool :=
  match c with
  | .missing => true
  | _ => false

/-- Per-row test of `df.dropna(subset=required)`: does the row hold a
missing marker in some column whose label belongs to `required`? -/
def hasMissingIn (required : List String) : List String → List Cell → Bool
  | [], _ => false
  | _ :: _, [] => false
  | l :: ls, c :: cs =>
    (required.contains l && isMissingCell c) || hasMissingIn required ls cs

/-- Stage 4, `handle_missing_values`: coerce the designated numeric columns,
then drop every row missing a value in a present designated column. -/
def handle_missing_values (df : DataFrame) : DataFrame :=
  let rows := df.rows.map (coerceNumericRow df.cols)
  let required := ["price", "quantity"].filter (fun l => df.cols.contains l)
  let rows :=
    if required.isEmpty then rows
    else rows.filter (fun row => !(hasMissingIn required df.cols row))
  { df with rows := rows }

/-- The cell of the column labelled `target` (first occurrence), the series
element consulted by the stage-5 masks `df["price"] >= 0`. -/
def getCellLbl (target : String) : List String → List Cell → Cell
  | [], _ => Cell.missing
  | _ :: _, [] => Cell.missing
  | l :: ls, c :: cs => if l = target then c else getCellLbl target ls cs

/-- The stage-5 mask `series >= 0` at one cell: true exactly on non-negative
numbers; the missing marker (NaN) compares false. -/
def cellGE0 (c : Cell) : Bool :=
  match c with
  | .num q => decide (0 ≤ q)
  | _ => false

/-- Stage 5, `remove_invalid_rows`: re-coerce the designated numeric columns,
then keep only rows whose present `price` (and then `quantity`) cell
satisfies `>= 0`. -/
def remove_invalid_rows (df : DataFrame) : DataFrame :=
  let rows := df.rows.map (coerceNumericRow df.cols)
  let rows :=
    if df.cols.contains "price" then
      rows.filter (fun row => cellGE0 (getCellLbl "price" df.cols row))
    else rows
  let rows :=
    if df.cols.contains "quantity" then
      rows.filter (fun row => cellGE0 (getCellLbl "quantity" df.cols row))
    else rows
  { df with rows := rows }

/-- A digit or the decimal point. -/
def digitOrDot (c : Char) : Bool :=
  isDigitChar c || c == '.'

/-- The spec's description of a numeric-coercible string, stated
independently of the parser: after an optional leading sign, the string
consists of digits and at most one decimal point, with at least one digit.
This is the comparison definition for the refinement claim C4. -/
def isStandardDecimal (s : String) : Bool :=
  let body :=
    match s.toList with
    | [] => ([] : List Char)
    | c :: rest => if c = '-' ∨ c = '+' then rest else c :: rest
  body.any isDigitChar && body.all digitOrDot && decide (body.count '.' ≤ 1)

/-- The last element of a character list, if any (used to reason about the
trailing end of `str.strip`). -/
def lastOpt : List Char → Option Char
  | [] => none
  | [c] => some c
  | _ :: c :: rest => lastOpt (c :: rest)

/-! ## Basic lemmas about the row/column combinators -/

theorem mapByLabel_length (f : String → Cell → Cell) :
    ∀ (ls : List String) (cs : List Cell), (mapByLabel f ls cs).length = cs.length
  | [], _ => rfl
  | _ :: _, [] => rfl
  | _ :: ls, _ :: cs => by
    simp [mapByLabel, mapByLabel_length f ls cs]

theorem mapByLabel_getElem?_some (f : String → Cell → Cell) :
    ∀ (ls : List String) (cs : List Cell) (i : Nat) (l : String) (c : Cell),
      ls[i]? = some l → cs[i]? = some c → (mapByLabel f ls cs)[i]? = some (f l c)
  | [], _, i, _, _, hl, _ => by simp at hl
  | _ :: _, [], i, _, _, _, hc => by simp at hc
  | _ :: _, _ :: _, 0, _, _, hl, hc => by
    simp at hl hc
    simp [mapByLabel, hl, hc]
  | _ :: ls, _ :: cs, i + 1, l, c, hl, hc => by
    simp only [List.getElem?_cons_succ] at hl hc
    simpa [mapByLabel] using mapByLabel_getElem?_some f ls cs i l c hl hc

theorem mapByLabel_getElem?_none (f : String → Cell → Cell)
    (ls : List String) (cs : List Cell) (i : Nat) (hc : cs[i]? = none) :
    (mapByLabel f ls cs)[i]? = none := by
  refine List.getElem?_eq_none ?_
  rw [mapByLabel_length]
  exact List.getElem?_eq_none_iff.mp hc

theorem mapByLabel_id (f : String → Cell → Cell) :
    ∀ (ls : List String) (cs : List Cell),
      (∀ l ∈ ls, ∀ c, f l c = c) → mapByLabel f ls cs = cs
  | [], _, _ => rfl
  | _ :: _, [], _ => rfl
  | l :: ls, c :: cs, h => by
    simp [mapByLabel, h l (by simp),
      mapByLabel_id f ls cs (fun l' hl' c' => h l' (by simp [hl']) c')]

theorem hasMissingIn_eq_false (required : List String) :
    ∀ (ls : List String) (cs : List Cell),
      hasMissingIn required ls cs = false →
      ∀ (i : Nat) (l : String), ls[i]? = some l → required.contains l = true →
        cs[i]? ≠ some Cell.missing
  | [], _, _, i, _, hl, _ => by simp at hl
  | _ :: _, [], _, i, _, _, _ => by simp
  | l' :: ls, c :: cs, h, 0, l, hl, hr => by
    simp at hl
    subst hl
    simp only [hasMissingIn, Bool.or_eq_false_iff, Bool.and_eq_false_iff] at h
    intro hc
    simp only [List.getElem?_cons_zero, Option.some.injEq] at hc
    subst hc
    rcases h.1 with h1 | h1
    · rw [hr] at h1; cases h1
    · simp [isMissingCell] at h1
  | _ :: ls, _ :: cs, h, i + 1, l, hl, hr => by
    simp only [List.getElem?_cons_succ] at hl ⊢
    simp only [hasMissingIn, Bool.or_eq_false_iff] at h
    exact hasMissingIn_eq_false required ls cs h.2 i l hl hr

theorem cellGE0_iff (c : Cell) :
    cellGE0 c = true ↔ ∃ q : Rat, c = Cell.num q ∧ 0 ≤ q := by
  cases c <;> simp [cellGE0]

theorem hmv_rows_sublist (df : DataFrame) :
    List.Sublist (handle_missing_values df).rows (df.rows.map (coerceNumericRow df.cols)) := by
  simp only [handle_missing_values]
  split
  · exact List.Sublist.refl _
  · exact List.filter_sublist _

theorem riv_rows_sublist (df : DataFrame) :
    List.Sublist (remove_invalid_rows df).rows (df.rows.map (coerceNumericRow df.cols)) := by
  simp only [remove_invalid_rows]
  split <;> split
  · exact (List.filter_sublist _).trans (List.filter_sublist _)
  · exact List.filter_sublist _
  · exact List.filter_sublist _
  · exact List.Sublist.refl _

/-! ## Claims -/

/-- C5, counterexample: on the dataset with columns `"A"` and `"a"` (both
normalizing to `"a"`), `clean_column_names` keeps both columns — the output
has two columns labelled `"a"` and the row still holds both original values —
and looking the collided label up still finds the earlier column's value
`"x"`.  So the later column does not overwrite the earlier one's position,
and the earlier column's values are still present under that label. -/
theorem c5_counterexample :
    clean_column_names ⟨["A", "a"], [[Cell.str "x", Cell.str "y"]]⟩
        = ⟨["a", "a"], [[Cell.str "x", Cell.str "y"]]⟩ ∧
      getCellLbl "a" ["a", "a"] [Cell.str "x", Cell.str "y"] = Cell.str "x" := by
  decide

/-- C5 (amended): the Header Normalizer does not resolve label collisions and
loses nothing: it relabels every column in place (`normalizeName` applied
positionally) and keeps the rows untouched, so two distinct original labels
with the same normalized form yield two coexisting columns carrying that
label, the earlier one still first. -/
theorem c5_collision_amended (df : DataFrame) :
    (clean_column_names df).cols = df.cols.map normalizeName ∧
      (clean_column_names df).rows = df.rows :=
  ⟨rfl, rfl⟩

/-- C6: the Header Normalizer and the Text Trimmer preserve the row count
exactly; the Missing-Value Resolver and the Invalid-Row Filter never grow the
row count, and their surviving rows are a sublist of the (coerced) input rows,
hence in their original relative order. -/
theorem c6_row_count_monotone (df : DataFrame) :
    (clean_column_names df).rows.length = df.rows.length ∧
    (strip_product_and_category df).rows.length = df.rows.length ∧
    (handle_missing_values df).rows.length ≤ df.rows.length ∧
    (remove_invalid_rows df).rows.length ≤ df.rows.length ∧
    List.Sublist (handle_missing_values df).rows (df.rows.map (coerceNumericRow df.cols)) ∧
    List.Sublist (remove_invalid_rows df).rows (df.rows.map (coerceNumericRow df.cols)) := by
  refine ⟨rfl, by simp [strip_product_and_category], ?_, ?_,
    hmv_rows_sublist df, riv_rows_sublist df⟩
  · have h := (hmv_rows_sublist df).length_le
    simpa using h
  · have h := (riv_rows_sublist df).length_le
    simpa using h

/-- C7: the Text Trimmer, Missing-Value Resolver and Invalid-Row Filter leave
the column label list (set and order) unchanged, and the Text Trimmer leaves
every cell of every column whose label does not contain `"product"` or
`"category"` exactly as it was. -/
theorem c7_column_stability (df : DataFrame) :
    (strip_product_and_category df).cols = df.cols ∧
    (handle_missing_values df).cols = df.cols ∧
    (remove_invalid_rows df).cols = df.cols ∧
    ∀ (i j : Nat) (l : String), df.cols[i]? = some l → isTextCol l = false →
      ((strip_product_and_category df).rows[j]?.bind (fun r => r[i]?)) =
        (df.rows[j]?.bind (fun r => r[i]?)) := by
  refine ⟨rfl, rfl, rfl, ?_⟩
  intro i j l hl ht
  simp only [strip_product_and_category, List.getElem?_map]
  cases hj : df.rows[j]? with
  | none => rfl
  | some r =>
    simp only [Option.map_some', Option.some_bind]
    cases hc : r[i]? with
    | none => exact mapByLabel_getElem?_none _ _ _ _ hc
    | some c =>
      rw [mapByLabel_getElem?_some _ df.cols r i l c hl hc, ht]
      simp

/-- C7 witness: on a one-column dataset whose only label `"price"` is not a
designated text column, the Text Trimmer leaves the single cell unchanged. -/
theorem c7_column_stability_witness :
    ((strip_product_and_category ⟨["price"], [[Cell.num 1]]⟩).rows[0]?.bind
        (fun r => r[0]?)) =
      ((⟨["price"], [[Cell.num 1]]⟩ : DataFrame).rows[0]?.bind (fun r => r[0]?)) :=
  (c7_column_stability ⟨["price"], [[Cell.num 1]]⟩).2.2.2 0 0 "price" rfl (by decide)

/-- C10: in a designated text column, the Text Trimmer turns a missing-marker
cell into the literal string `"nan"` (the stripped string form of the missing
marker), which is not a missing marker. -/
theorem c10_trimmer_stringifies_missing (df : DataFrame) (i j : Nat) (l : String)
    (hl : df.cols[i]? = some l) (ht : isTextCol l = true)
    (hm : df.rows[j]?.bind (fun r => r[i]?) = some Cell.missing) :
    (strip_product_and_category df).rows[j]?.bind (fun r => r[i]?)
        = some (Cell.str "nan") ∧
      Cell.str "nan" ≠ Cell.missing := by
  refine ⟨?_, by simp⟩
  cases hj : df.rows[j]? with
  | none => rw [hj] at hm; simp at hm
  | some r =>
    rw [hj] at hm
    simp only [Option.some_bind] at hm
    simp only [strip_product_and_category, List.getElem?_map, hj,
      Option.map_some', Option.some_bind]
    rw [mapByLabel_getElem?_some _ df.cols r i l Cell.missing hl hm, ht]
    simp only [if_true]
    rfl

/-- C10 witness: the concrete one-cell `"product"` column with a missing cell
comes out of the Text Trimmer as the non-missing string `"nan"`. -/
theorem c10_trimmer_stringifies_missing_witness :
    (strip_product_and_category ⟨["product"], [[Cell.missing]]⟩).rows[0]?.bind
        (fun r => r[0]?) = some (Cell.str "nan") ∧
      Cell.str "nan" ≠ Cell.missing :=
  c10_trimmer_stringifies_missing ⟨["product"], [[Cell.missing]]⟩ 0 0 "product"
    rfl (by decide) rfl

/-- C1: every row surviving `remove_invalid_rows` holds, in a present
`price` (resp. `quantity`) column, a numeric value `q` with `0 ≤ q`; in
particular that cell is not a missing marker, so a row whose present
designated cell was missing (for which the `>= 0` mask is false) has been
excluded. -/
theorem c1_invalid_rows_removed (df : DataFrame) (row : List Cell)
    (hrow : row ∈ (remove_invalid_rows df).rows) :
    ("price" ∈ df.cols →
      ∃ q : Rat, getCellLbl "price" df.cols row = Cell.num q ∧ 0 ≤ q) ∧
    ("quantity" ∈ df.cols →
      ∃ q : Rat, getCellLbl "quantity" df.cols row = Cell.num q ∧ 0 ≤ q) := by
  simp only [remove_invalid_rows] at hrow
  constructor
  · intro hp
    have hpc : df.cols.contains "price" = true := List.elem_eq_true_of_mem hp
    rw [if_pos hpc] at hrow
    have h1 : row ∈ (df.rows.map (coerceNumericRow df.cols)).filter
        (fun r => cellGE0 (getCellLbl "price" df.cols r)) := by
      split at hrow
      · exact List.mem_of_mem_filter hrow
      · exact hrow
    have h2 := List.of_mem_filter h1
    exact (cellGE0_iff _).mp h2
  · intro hq
    have hqc : df.cols.contains "quantity" = true := List.elem_eq_true_of_mem hq
    rw [if_pos hqc] at hrow
    have h2 := List.of_mem_filter hrow
    exact (cellGE0_iff _).mp h2

/-- C1 witness: in the dataset with columns `price`, `quantity` and the rows
`["3", "2"]` and `["-1", "4"]`, the surviving row `[3, 2]` has a non-negative
numeric value in both designated columns. -/
theorem c1_invalid_rows_removed_witness :
    (∃ q : Rat, getCellLbl "price" ["price", "quantity"] [Cell.num 3, Cell.num 2]
        = Cell.num q ∧ 0 ≤ q) ∧
    (∃ q : Rat, getCellLbl "quantity" ["price", "quantity"] [Cell.num 3, Cell.num 2]
        = Cell.num q ∧ 0 ≤ q) := by
  have h := c1_invalid_rows_removed
    ⟨["price", "quantity"], [[Cell.str "3", Cell.str "2"], [Cell.str "-1", Cell.str "4"]]⟩
    [Cell.num 3, Cell.num 2] (by decide)
  exact ⟨h.1 (by decide), h.2 (by decide)⟩

/-- C2: after `handle_missing_values`, no surviving row holds a missing
marker in a present `price` or `quantity` column; the surviving rows are a
sublist of the coerced input rows (original relative order); and when neither
designated column is present the stage returns its input unchanged. -/
theorem c2_missing_values_resolved (df : DataFrame) :
    (∀ row ∈ (handle_missing_values df).rows, ∀ (i : Nat) (l : String),
        df.cols[i]? = some l → l = "price" ∨ l = "quantity" →
          row[i]? ≠ some Cell.missing) ∧
    List.Sublist (handle_missing_values df).rows (df.rows.map (coerceNumericRow df.cols)) ∧
    ("price" ∉ df.cols → "quantity" ∉ df.cols → handle_missing_values df = df) := by
  refine ⟨?_, hmv_rows_sublist df, ?_⟩
  · intro row hrow i l hl hd
    have hmeml : l ∈ df.cols := List.getElem?_mem hl
    have hreql : l ∈ ["price", "quantity"].filter (fun l => df.cols.contains l) := by
      refine List.mem_filter.mpr ⟨?_, List.elem_eq_true_of_mem hmeml⟩
      rcases hd with h | h <;> simp [h]
    simp only [handle_missing_values] at hrow
    split at hrow
    · rename_i hemp
      rw [List.isEmpty_iff.mp hemp] at hreql
      cases hreql
    · have h2 := List.of_mem_filter hrow
      have hmiss : hasMissingIn
          (["price", "quantity"].filter (fun l => df.cols.contains l)) df.cols row = false := by
        simpa using h2
      exact hasMissingIn_eq_false _ df.cols row hmiss i l hl
        (List.elem_eq_true_of_mem hreql)
  · intro hnp hnq
    have hcp : df.cols.contains "price" = false := by
      rcases h : df.cols.contains "price" with _ | _
      · rfl
      · exact absurd (List.elem_iff.mp h) hnp
    have hcq : df.cols.contains "quantity" = false := by
      rcases h : df.cols.contains "quantity" with _ | _
      · rfl
      · exact absurd (List.elem_iff.mp h) hnq
    have hrows : df.rows.map (coerceNumericRow df.cols) = df.rows := by
      have hid : ∀ row, coerceNumericRow df.cols row = row := by
        intro row
        refine mapByLabel_id _ df.cols row ?_
        intro l hl c
        have : isNumLabel l = false := by
          rcases hp : l == "price" with _ | _
          · rcases hq : l == "quantity" with _ | _
            · simp [isNumLabel, hp, hq]
            · exact absurd (by rw [← (beq_iff_eq ..).mp hq]; exact hl) hnq
          · exact absurd (by rw [← (beq_iff_eq ..).mp hp]; exact hl) hnp
        simp [this]
      calc df.rows.map (coerceNumericRow df.cols)
          = df.rows.map id := List.map_congr_left (fun r _ => hid r)
        _ = df.rows := List.map_id df.rows
    have hemp : (["price", "quantity"].filter (fun l => df.cols.contains l)).isEmpty = true := by
      simp only [List.filter_cons, List.filter_nil, hcp, hcq, Bool.false_eq_true,
        if_false, List.isEmpty_nil]
    simp only [handle_missing_values, hrows, if_pos hemp]

/-- C2 witness: in the one-column dataset `price` with rows `["x"]` and
`["5"]`, the surviving row `[5]` has no missing marker in the `price`
column. -/
theorem c2_missing_values_resolved_witness :
    ([Cell.num 5] : List Cell)[0]? ≠ some Cell.missing :=
  (c2_missing_values_resolved ⟨["price"], [[Cell.str "x"], [Cell.str "5"]]⟩).1
    [Cell.num 5] (by decide) 0 "price" rfl (Or.inl rfl)

theorem toNumericCell_idem (c : Cell) :
    toNumericCell (toNumericCell c) = toNumericCell c := by
  cases c with
  | str s =>
    simp only [toNumericCell]
    cases parseDecimal s <;> rfl
  | num q => rfl
  | missing => rfl

theorem coerceNumericRow_idem :
    ∀ (cols : List String) (row : List Cell),
      coerceNumericRow cols (coerceNumericRow cols row) = coerceNumericRow cols row
  | [], _ => rfl
  | _ :: _, [] => rfl
  | l :: ls, c :: cs => by
    have ih := coerceNumericRow_idem ls cs
    simp only [coerceNumericRow, mapByLabel] at ih ⊢
    by_cases h : isNumLabel l = true
    · simp [h, toNumericCell_idem, ih]
    · simp only [Bool.not_eq_true] at h
      simp [h, ih]

/-- C9: the Missing-Value Resolver is idempotent — re-coercing its output
changes no cell (already-numeric and missing cells are fixed points of the
coercion) and the second `dropna` removes no row. -/
theorem c9_hmv_idempotent (df : DataFrame) :
    handle_missing_values (handle_missing_values df) = handle_missing_values df := by
  set X := handle_missing_values df with hX
  have hXcols : X.cols = df.cols := rfl
  have hR : ∀ row ∈ X.rows, coerceNumericRow df.cols row = row := by
    intro row hrow
    have hM : row ∈ df.rows.map (coerceNumericRow df.cols) :=
      (hmv_rows_sublist df).subset hrow
    rcases List.mem_map.mp hM with ⟨r, _, rfl⟩
    exact coerceNumericRow_idem df.cols r
  have hmap : X.rows.map (coerceNumericRow df.cols) = X.rows := by
    calc X.rows.map (coerceNumericRow df.cols)
        = X.rows.map id := List.map_congr_left (fun r hr => hR r hr)
      _ = X.rows := List.map_id X.rows
  refine DataFrame.ext rfl ?_
  show (handle_missing_values X).rows = X.rows
  simp only [handle_missing_values, hXcols, hmap]
  split
  · rfl
  · rename_i hemp
    refine List.filter_eq_self.mpr ?_
    intro row hrow
    rw [hX] at hrow
    simp only [handle_missing_values] at hrow
    rw [if_neg hemp] at hrow
    have h2 := List.of_mem_filter hrow
    simpa using h2

/-! ## The decimal grammar of the coercion (claim C4) -/

theorem dropWhile_head?_not (p : Char → Bool) :
    ∀ (l : List Char) (c : Char), (l.dropWhile p).head? = some c → p c = false
  | [], c, h => by simp at h
  | a :: as, c, h => by
    rw [List.dropWhile_cons] at h
    split at h
    · exact dropWhile_head?_not p as c h
    · rename_i hpa
      simp only [List.head?_cons, Option.some.injEq] at h
      subst h
      simpa using hpa

theorem decMain_isSome (cs : List Char) :
    (decMain cs).isSome = true ↔
      (cs.any isDigitChar = true ∧ cs.all digitOrDot = true ∧ cs.count '.' ≤ 1) := by
  have hsplit := List.takeWhile_append_dropWhile (p := isDigitChar) (l := cs)
  have htd : ∀ x ∈ cs.takeWhile isDigitChar, isDigitChar x = true :=
    fun _ hx => List.mem_takeWhile_imp hx
  have hdotd : isDigitChar '.' = false := by decide
  cases hd : cs.dropWhile isDigitChar with
  | nil =>
    rw [hd, List.append_nil] at hsplit
    simp only [decMain, hd]
    rw [hsplit]
    split
    · rename_i hemp
      rw [List.isEmpty_iff.mp hemp]
      simp
    · rename_i hemp
      have hne : cs ≠ [] := fun h => hemp (by simp [h])
      have hall : ∀ x ∈ cs, isDigitChar x = true := fun x hx =>
        htd x (by rw [hsplit]; exact hx)
      refine iff_of_true rfl ⟨?_, ?_, ?_⟩
      · rcases List.exists_mem_of_ne_nil cs hne with ⟨x, hx⟩
        exact List.any_eq_true.mpr ⟨x, hx, hall x hx⟩
      · exact List.all_eq_true.mpr (fun x hx => by simp [digitOrDot, hall x hx])
      · have hnotin : '.' ∉ cs := fun hdot => by rw [hall _ hdot] at hdotd; cases hdotd
        simp [List.count_eq_zero.mpr hnotin]
  | cons c frac =>
    rw [hd] at hsplit
    have hc_not : isDigitChar c = false := dropWhile_head?_not _ cs c (by rw [hd]; rfl)
    have htcount : (cs.takeWhile isDigitChar).count '.' = 0 :=
      List.count_eq_zero.mpr (fun hdot => by rw [htd _ hdot] at hdotd; cases hdotd)
    simp only [decMain, hd]
    by_cases hcdot : c = '.'
    · subst hcdot
      rw [if_pos rfl]
      have hcount_cs : cs.count '.' = frac.count '.' + 1 := by
        rw [← hsplit, List.count_append, htcount, List.count_cons]
        simp
      split
      · rename_i hcond
        rw [Bool.and_eq_true] at hcond
        obtain ⟨hfrac, hne⟩ := hcond
        rw [Bool.not_eq_true'] at hne
        have hfrac' : ∀ x ∈ frac, isDigitChar x = true := List.all_eq_true.mp hfrac
        refine iff_of_true rfl ⟨?_, ?_, ?_⟩
        · rcases Bool.and_eq_false_iff.mp hne with h | h
          · have hne' : cs.takeWhile isDigitChar ≠ [] := by
              intro h0; rw [h0] at h; cases h
            rcases List.exists_mem_of_ne_nil _ hne' with ⟨x, hx⟩
            refine List.any_eq_true.mpr ⟨x, ?_, htd x hx⟩
            rw [← hsplit]; exact List.mem_append_left _ hx
          · have hne' : frac ≠ [] := by intro h0; rw [h0] at h; cases h
            rcases List.exists_mem_of_ne_nil _ hne' with ⟨x, hx⟩
            refine List.any_eq_true.mpr ⟨x, ?_, hfrac' x hx⟩
            rw [← hsplit]
            exact List.mem_append_right _ (List.mem_cons_of_mem _ hx)
        · refine List.all_eq_true.mpr ?_
          intro x hx
          rw [← hsplit] at hx
          rcases List.mem_append.mp hx with h | h
          · simp [digitOrDot, htd x h]
          · rcases List.mem_cons.mp h with h | h
            · simp [digitOrDot, h]
            · simp [digitOrDot, hfrac' x h]
        · have hfcount : frac.count '.' = 0 :=
            List.count_eq_zero.mpr (fun hdot => by rw [hfrac' _ hdot] at hdotd; cases hdotd)
          omega
      · rename_i hcond
        refine iff_of_false (by simp) ?_
        rintro ⟨hany, hall, hcnt⟩
        apply hcond
        have hfcount : frac.count '.' = 0 := by omega
        have hnotfrac : '.' ∉ frac := List.count_eq_zero.mp hfcount
        have hfall : frac.all isDigitChar = true := by
          refine List.all_eq_true.mpr ?_
          intro x hx
          have hxcs : x ∈ cs := by
            rw [← hsplit]
            exact List.mem_append_right _ (List.mem_cons_of_mem _ hx)
          have hdod := List.all_eq_true.mp hall x hxcs
          rcases Bool.or_eq_true_iff.mp hdod with h | h
          · exact h
          · rw [beq_iff_eq] at h
            exact absurd (h ▸ hx) hnotfrac
        have hne : ((cs.takeWhile isDigitChar).isEmpty && frac.isEmpty) = false := by
          rcases List.any_eq_true.mp hany with ⟨x, hx, hxd⟩
          rw [← hsplit] at hx
          rcases List.mem_append.mp hx with h | h
          · have : cs.takeWhile isDigitChar ≠ [] := by
              intro h0; rw [h0] at h; cases h
            have hie : (cs.takeWhile isDigitChar).isEmpty = false := by
              rcases hie2 : (cs.takeWhile isDigitChar).isEmpty with _ | _
              · rfl
              · exact absurd (List.isEmpty_iff.mp hie2) this
            simp [hie]
          · rcases List.mem_cons.mp h with h | h
            · rw [h] at hxd; rw [hxd] at hdotd; cases hdotd
            · have : frac ≠ [] := by intro h0; rw [h0] at h; cases h
              have hie : frac.isEmpty = false := by
                rcases hie2 : frac.isEmpty with _ | _
                · rfl
                · exact absurd (List.isEmpty_iff.mp hie2) this
              simp [hie]
        rw [hfall, hne]
        rfl
    · rw [if_neg hcdot]
      refine iff_of_false (by simp) ?_
      rintro ⟨hany, hall, hcnt⟩
      have hcmem : c ∈ cs := by
        rw [← hsplit]
        exact List.mem_append_right _ (List.mem_cons_self c frac)
      have hdod := List.all_eq_true.mp hall c hcmem
      rcases Bool.or_eq_true_iff.mp hdod with h | h
      · rw [h] at hc_not; cases hc_not
      · rw [beq_iff_eq] at h
        exact hcdot h

theorem parseDecimal_isSome (s : String) :
    (parseDecimal s).isSome = true ↔ isStandardDecimal s = true := by
  cases hls : s.toList with
  | nil =>
    simp only [parseDecimal, isStandardDecimal, hls]
    decide
  | cons c rest =>
    by_cases hminus : c = '-'
    · simp only [parseDecimal, isStandardDecimal, hls, if_pos hminus,
        if_pos (Or.inl hminus : c = '-' ∨ c = '+')]
      rw [Option.isSome_map', decMain_isSome]
      simp [Bool.and_eq_true, and_assoc]
    · by_cases hplus : c = '+'
      · simp only [parseDecimal, isStandardDecimal, hls, if_neg hminus, if_pos hplus,
          if_pos (Or.inr hplus : c = '-' ∨ c = '+')]
        rw [decMain_isSome]
        simp [Bool.and_eq_true, and_assoc]
      · have hns : ¬(c = '-' ∨ c = '+') := fun h => h.elim hminus hplus
        simp only [parseDecimal, isStandardDecimal, hls, if_neg hminus, if_neg hplus,
          if_neg hns]
        rw [decMain_isSome]
        simp [Bool.and_eq_true, and_assoc]

/-- C4: in the coercion of a designated numeric column, a text cell becomes a
numeric value exactly when its string form matches the standard decimal
grammar (optional sign, digits, at most one decimal point, at least one
digit), and a text cell that fails to parse becomes the missing marker; the
coercion is total — every text cell becomes either a number or the missing
marker, never an error. -/
theorem c4_coercion_decimal_grammar (s : String) :
    ((∃ q : Rat, toNumericCell (Cell.str s) = Cell.num q) ↔ isStandardDecimal s = true) ∧
    (isStandardDecimal s = false → toNumericCell (Cell.str s) = Cell.missing) ∧
    (toNumericCell (Cell.str s) = Cell.missing ∨
      ∃ q : Rat, toNumericCell (Cell.str s) = Cell.num q) := by
  have hiff := parseDecimal_isSome s
  refine ⟨⟨?_, ?_⟩, ?_, ?_⟩
  · rintro ⟨q, hq⟩
    apply hiff.mp
    cases hp : parseDecimal s with
    | none => simp [toNumericCell, hp] at hq
    | some q' => simp
  · intro hstd
    rcases Option.isSome_iff_exists.mp (hiff.mpr hstd) with ⟨q, hq⟩
    exact ⟨q, by simp [toNumericCell, hq]⟩
  · intro hstd
    cases hp : parseDecimal s with
    | none => simp [toNumericCell, hp]
    | some q =>
      have htrue : isStandardDecimal s = true := hiff.mp (by simp [hp])
      rw [htrue] at hstd
      cases hstd
  · cases hp : parseDecimal s with
    | none => exact Or.inl (by simp [toNumericCell, hp])
    | some q => exact Or.inr ⟨q, by simp [toNumericCell, hp]⟩

/-- C4 witness: the unparseable text `"abc"` is coerced to the missing
marker rather than an error. -/
theorem c4_coercion_decimal_grammar_witness :
    toNumericCell (Cell.str "abc") = Cell.missing :=
  (c4_coercion_decimal_grammar "abc").2.1 (by decide)

/-! ## Lemmas about the label-normalization string machinery -/

theorem lastOpt_cons_ne_nil (a : Char) (l : List Char) (h : l ≠ []) :
    lastOpt (a :: l) = lastOpt l := by
  cases l with
  | nil => exact absurd rfl h
  | cons b bs => rfl

theorem lastOpt_rev : ∀ l : List Char, l.reverse.head? = lastOpt l := by
  intro l
  induction l with
  | nil => rfl
  | cons a as ih =>
    cases as with
    | nil => rfl
    | cons b bs =>
      rw [List.reverse_cons]
      rw [List.head?_append_of_ne_nil _ (by simp)]
      exact ih

theorem dropWhile_eq_self_of_head (p : Char → Bool) (l : List Char)
    (h : ∀ c, l.head? = some c → p c = false) : l.dropWhile p = l := by
  cases l with
  | nil => rfl
  | cons a as => simp [List.dropWhile_cons, h a rfl]

theorem lastOpt_dropWhile (p : Char → Bool) :
    ∀ l : List Char, l.dropWhile p = [] ∨ lastOpt (l.dropWhile p) = lastOpt l
  | [] => Or.inl rfl
  | a :: as => by
    rw [List.dropWhile_cons]
    split
    · cases as with
      | nil => exact Or.inl rfl
      | cons b bs =>
        rcases lastOpt_dropWhile p (b :: bs) with h | h
        · exact Or.inl h
        · exact Or.inr (by rw [h]; exact rfl)
    · exact Or.inr rfl

theorem stripChars_head?_not_ws (l : List Char) (c : Char)
    (h : (stripChars l).head? = some c) : isSpaceChar c = false := by
  unfold stripChars at h
  rw [lastOpt_rev] at h
  rcases lastOpt_dropWhile isSpaceChar (l.dropWhile isSpaceChar).reverse with h0 | h0
  · rw [h0] at h
    cases h
  · rw [h0] at h
    have h1 := lastOpt_rev (l.dropWhile isSpaceChar).reverse
    rw [List.reverse_reverse] at h1
    rw [← h1] at h
    exact dropWhile_head?_not isSpaceChar l c h

theorem stripChars_lastOpt_not_ws (l : List Char) (c : Char)
    (h : lastOpt (stripChars l) = some c) : isSpaceChar c = false := by
  unfold stripChars at h
  have h1 := lastOpt_rev ((l.dropWhile isSpaceChar).reverse.dropWhile isSpaceChar).reverse
  rw [List.reverse_reverse] at h1
  rw [← h1] at h
  exact dropWhile_head?_not isSpaceChar _ c h

theorem stripChars_eq_self (l : List Char)
    (h1 : ∀ c, l.head? = some c → isSpaceChar c = false)
    (h2 : ∀ c, lastOpt l = some c → isSpaceChar c = false) :
    stripChars l = l := by
  unfold stripChars
  rw [dropWhile_eq_self_of_head isSpaceChar l h1]
  rw [dropWhile_eq_self_of_head isSpaceChar l.reverse
    (fun c hc => h2 c (by rw [← lastOpt_rev l]; exact hc))]
  exact List.reverse_reverse l

theorem lastOpt_map : ∀ (f : Char → Char) (l : List Char),
    lastOpt (l.map f) = (lastOpt l).map f
  | _, [] => rfl
  | _, [_] => rfl
  | f, a :: b :: bs => by
    rw [List.map_cons]
    rw [lastOpt_cons_ne_nil _ _ (by simp)]
    rw [lastOpt_map f (b :: bs)]
    exact rfl

theorem replaceDD_sub : ∀ (l : List Char), ∀ c ∈ replaceDD l, c ∈ l
  | [] => by simp [replaceDD]
  | [a] => by simp [replaceDD]
  | c1 :: c2 :: rest => by
    intro c hc
    simp only [replaceDD] at hc
    split at hc
    · rename_i h
      rcases List.mem_cons.mp hc with h1 | h1
      · rw [h1, h.1]
        exact List.mem_cons_self _ _
      · exact List.mem_cons_of_mem _ (List.mem_cons_of_mem _ (replaceDD_sub rest c h1))
    · rcases List.mem_cons.mp hc with h1 | h1
      · rw [h1]
        exact List.mem_cons_self _ _
      · exact List.mem_cons_of_mem _ (replaceDD_sub (c2 :: rest) c h1)

theorem replaceDD_length_le : ∀ l : List Char, (replaceDD l).length ≤ l.length
  | [] => Nat.le_refl _
  | [_] => Nat.le_refl _
  | c1 :: c2 :: rest => by
    simp only [replaceDD]
    split
    · have := replaceDD_length_le rest
      simp only [List.length_cons]
      omega
    · have := replaceDD_length_le (c2 :: rest)
      simp only [List.length_cons] at this ⊢
      omega

theorem replaceDD_length_lt : ∀ l : List Char, hasDD l = true → (replaceDD l).length < l.length
  | [], h => by simp [hasDD] at h
  | [a], h => by simp [hasDD] at h
  | c1 :: c2 :: rest, h => by
    simp only [replaceDD]
    split
    · have := replaceDD_length_le rest
      simp only [List.length_cons]
      omega
    · rename_i hne
      have h2 : hasDD (c2 :: rest) = true := by
        simp only [hasDD, Bool.or_eq_true, Bool.and_eq_true, beq_iff_eq] at h
        rcases h with h | h
        · exact absurd h hne
        · exact h
      have := replaceDD_length_lt (c2 :: rest) h2
      simp only [List.length_cons] at this ⊢
      omega

theorem replaceDD_ne_nil : ∀ l : List Char, l ≠ [] → replaceDD l ≠ []
  | [], h => absurd rfl h
  | [a], _ => by simp [replaceDD]
  | c1 :: c2 :: rest, _ => by
    simp only [replaceDD]
    split <;> simp

theorem replaceDD_head? : ∀ l : List Char, (replaceDD l).head? = l.head?
  | [] => rfl
  | [_] => rfl
  | c1 :: c2 :: rest => by
    simp only [replaceDD]
    split
    · rename_i h
      simp [h.1]
    · simp

theorem replaceDD_lastOpt : ∀ l : List Char, lastOpt (replaceDD l) = lastOpt l
  | [] => rfl
  | [_] => rfl
  | c1 :: c2 :: rest => by
    simp only [replaceDD]
    split
    · rename_i h
      cases rest with
      | nil => simp [replaceDD, lastOpt, h.2]
      | cons r rs =>
        rw [lastOpt_cons_ne_nil _ _ (replaceDD_ne_nil (r :: rs) (by simp))]
        rw [replaceDD_lastOpt (r :: rs)]
        rfl
    · rw [lastOpt_cons_ne_nil _ _ (replaceDD_ne_nil (c2 :: rest) (by simp))]
      rw [replaceDD_lastOpt (c2 :: rest)]
      rfl

theorem collapseAux_sub : ∀ (n : Nat) (l : List Char), ∀ c ∈ collapseAux n l, c ∈ l
  | 0, _ => fun _ hc => hc
  | n + 1, l => by
    intro c hc
    simp only [collapseAux] at hc
    split at hc
    · exact replaceDD_sub l c (collapseAux_sub n (replaceDD l) c hc)
    · exact hc

theorem collapseAux_head? : ∀ (n : Nat) (l : List Char),
    (collapseAux n l).head? = l.head?
  | 0, _ => rfl
  | n + 1, l => by
    simp only [collapseAux]
    split
    · rw [collapseAux_head? n (replaceDD l), replaceDD_head?]
    · rfl

theorem collapseAux_lastOpt : ∀ (n : Nat) (l : List Char),
    lastOpt (collapseAux n l) = lastOpt l
  | 0, _ => rfl
  | n + 1, l => by
    simp only [collapseAux]
    split
    · rw [collapseAux_lastOpt n (replaceDD l), replaceDD_lastOpt]
    · rfl

theorem collapseAux_not_hasDD : ∀ (n : Nat) (l : List Char),
    l.length ≤ n → hasDD (collapseAux n l) = false
  | 0, l, h => by
    have h0 : l = [] := List.length_eq_zero.mp (Nat.le_zero.mp h)
    rw [h0]
    rfl
  | n + 1, l, h => by
    simp only [collapseAux]
    split
    · rename_i hdd
      have := replaceDD_length_lt l hdd
      exact collapseAux_not_hasDD n (replaceDD l) (by omega)
    · rename_i hdd
      simpa using hdd

theorem collapseAux_id_of_not_hasDD : ∀ (n : Nat) (l : List Char),
    hasDD l = false → collapseAux n l = l
  | 0, _, _ => rfl
  | n + 1, l, h => by
    simp [collapseAux, h]

theorem pyLower_table_fix : ∀ p ∈ lowerPairs, pyLower p.2 = p.2 := by decide

theorem pyLower_table_not_ws : ∀ p ∈ lowerPairs, isSpaceChar p.2 = false := by decide

theorem pyLower_eq_of_none (c : Char)
    (h : lowerPairs.find? (fun p => p.1 == c) = none) : pyLower c = c := by
  unfold pyLower
  rw [h]

theorem pyLower_eq_of_some (c : Char) (p : Char × Char)
    (h : lowerPairs.find? (fun q => q.1 == c) = some p) : pyLower c = p.2 := by
  unfold pyLower
  rw [h]

theorem pyLower_idem (c : Char) : pyLower (pyLower c) = pyLower c := by
  cases h : lowerPairs.find? (fun p => p.1 == c) with
  | none =>
    have e := pyLower_eq_of_none c h
    rw [e]
    exact e
  | some p =>
    have e := pyLower_eq_of_some c p h
    rw [e]
    exact pyLower_table_fix p (List.mem_of_find?_eq_some h)

theorem pyLower_not_ws (c : Char) (h : isSpaceChar c = false) :
    isSpaceChar (pyLower c) = false := by
  cases hf : lowerPairs.find? (fun p => p.1 == c) with
  | none => rw [pyLower_eq_of_none c hf]; exact h
  | some p =>
    rw [pyLower_eq_of_some c p hf]
    exact pyLower_table_not_ws p (List.mem_of_find?_eq_some hf)

theorem replChar_cases (a c : Char) : replChar a c = '_' ∨ replChar a c = c := by
  unfold replChar
  split
  · exact Or.inl rfl
  · exact Or.inr rfl

theorem replChar_eq_self (a c : Char) (h : c ≠ a) : replChar a c = c := by
  unfold replChar
  exact if_neg h

theorem replChar_ne_target (a c : Char) (ha : a ≠ '_') : replChar a c ≠ a := by
  unfold replChar
  split
  · exact fun hh => ha hh.symm
  · rename_i hne
    exact hne

theorem replChar_ne_of_ne (a c x : Char) (hx : x ≠ '_') (hcx : c ≠ x) :
    replChar a c ≠ x := by
  rcases replChar_cases a c with h | h <;> rw [h]
  · exact fun hh => hx hh.symm
  · exact hcx

theorem replChar_not_ws (a c : Char) (h : isSpaceChar c = false) :
    isSpaceChar (replChar a c) = false := by
  rcases replChar_cases a c with hh | hh <;> rw [hh]
  · decide
  · exact h

theorem pyLower_fix_replChar (a c : Char) (h : pyLower c = c) :
    pyLower (replChar a c) = replChar a c := by
  rcases replChar_cases a c with hh | hh <;> rw [hh]
  · decide
  · exact h

/-- The character list of a normalized label, by definition. -/
theorem normalizeName_toList (s : String) :
    (normalizeName s).toList =
      collapseDD ((((stripChars s.toList).map pyLower).map (replChar ' ')).map
        (replChar '/') |>.map (replChar '-')) := rfl

theorem normalizeName_mem (s : String) :
    ∀ c ∈ (normalizeName s).toList,
      pyLower c = c ∧ c ≠ ' ' ∧ c ≠ '/' ∧ c ≠ '-' := by
  intro c hc
  rw [normalizeName_toList] at hc
  simp only [collapseDD] at hc
  have hx := collapseAux_sub _ _ c hc
  rcases List.mem_map.mp hx with ⟨c2, hc2, rfl⟩
  rcases List.mem_map.mp hc2 with ⟨c1, hc1, rfl⟩
  rcases List.mem_map.mp hc1 with ⟨c0, hc0, rfl⟩
  rcases List.mem_map.mp hc0 with ⟨d, _, rfl⟩
  refine ⟨?_, ?_, ?_, ?_⟩
  · exact pyLower_fix_replChar _ _ (pyLower_fix_replChar _ _
      (pyLower_fix_replChar _ _ (pyLower_idem d)))
  · exact replChar_ne_of_ne _ _ _ (by decide)
      (replChar_ne_of_ne _ _ _ (by decide) (replChar_ne_target _ _ (by decide)))
  · exact replChar_ne_of_ne _ _ _ (by decide) (replChar_ne_target _ _ (by decide))
  · exact replChar_ne_target _ _ (by decide)

theorem normalizeName_no_dd (s : String) :
    hasDD (normalizeName s).toList = false := by
  rw [normalizeName_toList]
  simp only [collapseDD]
  exact collapseAux_not_hasDD _ _ (Nat.le_refl _)

theorem normalizeName_head_not_ws (s : String) (c : Char)
    (h : (normalizeName s).toList.head? = some c) : isSpaceChar c = false := by
  rw [normalizeName_toList] at h
  simp only [collapseDD] at h
  rw [collapseAux_head?] at h
  rw [List.head?_map, List.head?_map, List.head?_map, List.head?_map] at h
  cases h0 : (stripChars s.toList).head? with
  | none => rw [h0] at h; cases h
  | some c0 =>
    rw [h0] at h
    simp only [Option.map_some', Option.some.injEq] at h
    rw [← h]
    exact replChar_not_ws _ _ (replChar_not_ws _ _ (replChar_not_ws _ _
      (pyLower_not_ws _ (stripChars_head?_not_ws (s.toList) c0 h0))))

theorem normalizeName_last_not_ws (s : String) (c : Char)
    (h : lastOpt (normalizeName s).toList = some c) : isSpaceChar c = false := by
  rw [normalizeName_toList] at h
  simp only [collapseDD] at h
  rw [collapseAux_lastOpt] at h
  rw [lastOpt_map, lastOpt_map, lastOpt_map, lastOpt_map] at h
  cases h0 : lastOpt (stripChars s.toList) with
  | none => rw [h0] at h; cases h
  | some c0 =>
    rw [h0] at h
    simp only [Option.map_some', Option.some.injEq] at h
    rw [← h]
    exact replChar_not_ws _ _ (replChar_not_ws _ _ (replChar_not_ws _ _
      (pyLower_not_ws _ (stripChars_lastOpt_not_ws (s.toList) c0 h0))))

theorem normalizeName_eq_of_fixed (t : String)
    (hstrip : stripChars t.toList = t.toList)
    (hlower : t.toList.map pyLower = t.toList)
    (hr1 : t.toList.map (replChar ' ') = t.toList)
    (hr2 : t.toList.map (replChar '/') = t.toList)
    (hr3 : t.toList.map (replChar '-') = t.toList) :
    normalizeName t = String.mk (collapseDD t.toList) := by
  simp only [normalizeName]
  rw [hstrip, hlower, hr1, hr2, hr3]

theorem normalizeName_idem (s : String) :
    normalizeName (normalizeName s) = normalizeName s := by
  have hmem := normalizeName_mem s
  have hstrip : stripChars (normalizeName s).toList = (normalizeName s).toList :=
    stripChars_eq_self _ (normalizeName_head_not_ws s) (normalizeName_last_not_ws s)
  have hlower : (normalizeName s).toList.map pyLower = (normalizeName s).toList := by
    calc (normalizeName s).toList.map pyLower
        = (normalizeName s).toList.map id :=
          List.map_congr_left (fun c hc => (hmem c hc).1)
      _ = (normalizeName s).toList := List.map_id _
  have hr1 : (normalizeName s).toList.map (replChar ' ') = (normalizeName s).toList := by
    calc (normalizeName s).toList.map (replChar ' ')
        = (normalizeName s).toList.map id :=
          List.map_congr_left (fun c hc => replChar_eq_self _ _ (hmem c hc).2.1)
      _ = (normalizeName s).toList := List.map_id _
  have hr2 : (normalizeName s).toList.map (replChar '/') = (normalizeName s).toList := by
    calc (normalizeName s).toList.map (replChar '/')
        = (normalizeName s).toList.map id :=
          List.map_congr_left (fun c hc => replChar_eq_self _ _ (hmem c hc).2.2.1)
      _ = (normalizeName s).toList := List.map_id _
  have hr3 : (normalizeName s).toList.map (replChar '-') = (normalizeName s).toList := by
    calc (normalizeName s).toList.map (replChar '-')
        = (normalizeName s).toList.map id :=
          List.map_congr_left (fun c hc => replChar_eq_self _ _ (hmem c hc).2.2.2)
      _ = (normalizeName s).toList := List.map_id _
  rw [normalizeName_eq_of_fixed (normalizeName s) hstrip hlower hr1 hr2 hr3]
  simp only [collapseDD]
  rw [collapseAux_id_of_not_hasDD _ _ (normalizeName_no_dd s)]
  cases hn : normalizeName s
  rfl

/-- C8: the Header Normalizer is idempotent on labels — normalizing an
already-normalized label changes nothing — and therefore re-running
`clean_column_names` on an already-normalized dataset changes no label. -/
theorem c8_normalizer_idempotent :
    (∀ s : String, normalizeName (normalizeName s) = normalizeName s) ∧
    (∀ df : DataFrame,
      clean_column_names (clean_column_names df) = clean_column_names df) := by
  refine ⟨normalizeName_idem, ?_⟩
  intro df
  refine DataFrame.ext ?_ rfl
  show (df.cols.map (fun c => normalizeName c)).map (fun c => normalizeName c)
      = df.cols.map (fun c => normalizeName c)
  rw [List.map_map]
  exact List.map_congr_left (fun c _ => normalizeName_idem c)

/-- C3, counterexample: the input label `"a\tb"` contains an internal tab;
`clean_column_names` replaces only the space character (and `/`, `-`), and
`strip` removes whitespace only at the ends, so the tab — a whitespace
character — survives into the output label, refuting "the output label
contains no whitespace character". -/
theorem c3_counterexample :
    normalizeName "a\tb" = "a\tb" ∧
      (normalizeName "a\tb").toList.contains '\t' = true ∧
      isSpaceChar '\t' = true := by
  decide

/-- C3 (amended): for every input label the normalized output label is
lowercase (every character is a fixed point of lowercasing), contains no
space character `' '`, no `'/'`, no `'-'`, and no two consecutive
underscores.  (Whitespace other than the space character, such as an internal
tab, may survive — see the counterexample.) -/
theorem c3_label_normal_form (s : String) :
    (normalizeName s).toList.all (fun c => pyLower c == c) = true ∧
    (normalizeName s).toList.contains ' ' = false ∧
    (normalizeName s).toList.contains '/' = false ∧
    (normalizeName s).toList.contains '-' = false ∧
    hasDD (normalizeName s).toList = false := by
  have hmem := normalizeName_mem s
  refine ⟨?_, ?_, ?_, ?_, normalizeName_no_dd s⟩
  · exact List.all_eq_true.mpr (fun c hc => beq_iff_eq .. |>.mpr (hmem c hc).1)
  · rcases h : (normalizeName s).toList.contains ' ' with _ | _
    · rfl
    · exact absurd rfl ((hmem ' ' (List.elem_iff.mp h)).2.1)
  · rcases h : (normalizeName s).toList.contains '/' with _ | _
    · rfl
    · exact absurd rfl ((hmem '/' (List.elem_iff.mp h)).2.2.1)
  · rcases h : (normalizeName s).toList.contains '-' with _ | _
    · rfl
    · exact absurd rfl ((hmem '-' (List.elem_iff.mp h)).2.2.2)

end DataClean
